import Mathlib

/-!
Shallow embedding of the experiment scripts of the
Dynamical-Isometry-Distillation repository: the episodic test loop, the
distillation-guided interpolation augmentation (augment_data_distill), the
pair-sample mixing pretraining block, the run_experiment accumulation loop,
and the grid-search driver dispatch and row-appending logic.

Tensors are idealized as vectors of rationals; the external RNDModel is
abstracted by its predict method; numpy random draws are modelled as explicit
streams of naturals; the possibly nonterminating rejection-sampling loop is
given an explicit fuel parameter and returns an Option.
-/

set_option maxHeartbeats 1000000

/-- Images are flattened tensors, idealized as vectors of rationals. -/
abbrev Img : Type := List ℚ

/-- Feature vectors returned by the predictor and target networks. -/
abbrev Feature : Type := List ℚ

/-- The external RNDModel is abstracted by its predict method, which returns
the list of per-class predictor features together with the target feature. -/
abbrev PredictFn : Type := Img → List Feature × Feature

/-- Embeds the per-class score (target_feature - predict).pow(2).sum(0) / 2
computed in test and in augment_data_distill. -/
def mseOf (target pred : Feature) : ℚ :=
  (List.zipWith (fun t p => (t - p) ^ 2) target pred).sum / 2

/-- Helper for npArgmin: scans the remaining scores, keeping the index of the
first minimal element seen so far. -/
def argminAux : List ℚ → ℕ → ℕ → ℚ → ℕ
  | [], _, best, _ => best
  | v :: vs, i, best, bv =>
    if v < bv then argminAux vs (i + 1) i v else argminAux vs (i + 1) best bv

/-- Embeds np.argmin on a list of scores: index of the first minimal element
(junk value 0 on the empty list, on which numpy raises). -/
def npArgmin : List ℚ → ℕ
  | [] => 0
  | v :: vs => argminAux vs 1 0 v

/-- The class assigned to an input: np.argmin over the per-class MSE scores,
exactly as computed in test and in augment_data_distill. -/
def classMinMse (predict : PredictFn) (x : Img) : ℕ :=
  npArgmin ((predict x).1.map (fun p => mseOf (predict x).2 p))

/-- The body of the test loop: threads the enumeration counter and the counter
correct; the first component of the result is batch_i + 1 after the last
iteration, the second is correct. -/
def testLoop (predict : PredictFn) : List (Img × ℕ) → ℕ → ℕ → ℕ × ℕ
  | [], i, c => (i, c)
  | s :: rest, i, c =>
    testLoop predict rest (i + 1) (if classMinMse predict s.1 = s.2 then c + 1 else c)

/-- Embeds test: on an empty loader the loop variable batch_i is never bound
and the final division correct / (batch_i + 1) raises a NameError, modelled as
none; otherwise the accuracy correct / (batch_i + 1) is returned. -/
def test (predict : PredictFn) (test_loader : List (Img × ℕ)) : Option ℚ :=
  match test_loader with
  | [] => none
  | _ :: _ =>
    some (((testLoop predict test_loader 0 0).2 : ℚ) / ((testLoop predict test_loader 0 0).1 : ℚ))

/-- Embeds the interpolation sample[0] * th + x_rand * (1 - th) elementwise. -/
def blend (a b : Img) (th : ℚ) : Img :=
  List.zipWith (fun u v => u * th + v * (1 - th)) a b

/-- The image component of samples[i] (default on an out-of-range index). -/
def sampleX (samples : List (Img × ℕ)) (i : ℕ) : Img :=
  (samples.getD i default).1

/-- The label component of samples[i] (default on an out-of-range index). -/
def sampleY (samples : List (Img × ℕ)) (i : ℕ) : ℕ :=
  (samples.getD i default).2

/-- Embeds the rejection-sampling loop of augment_data_distill: i_rand is
redrawn from the stream r while samples[i_rand][1] == sample[1]. The loop has
no bound in the source, so it is given fuel; k is the position in the draw
stream. -/
def drawDiffLabel (samples : List (Img × ℕ)) (y : ℕ) (r : ℕ → ℕ) : ℕ → ℕ → Option ℕ
  | 0, _ => none
  | fuel + 1, k =>
    if (samples.getD (r k) default).2 = y then drawDiffLabel samples y r fuel (k + 1)
    else some (r k)

/-- Embeds the coefficient-search loop of augment_data_distill: while th > 0.7
the blend at th is classified, the loop breaks when the class differs from y,
and otherwise th decreases by 0.02. C is the classification of the blend at a
given coefficient. The source loop terminates after at most 10 decrements; the
fuel argument is shown sufficient separately. -/
def thSearch (C : ℚ → ℕ) (y : ℕ) : ℕ → ℚ → ℚ
  | 0, th => th
  | fuel + 1, th =>
    if 7/10 < th then
      if C th ≠ y then th else thSearch C y fuel (th - 1/50)
    else th

/-- Counts the executions of the body of the coefficient-search loop. -/
def thIters (C : ℚ → ℕ) (y : ℕ) : ℕ → ℚ → ℕ
  | 0, _ => 0
  | fuel + 1, th =>
    if 7/10 < th then
      if C th ≠ y then 1 else 1 + thIters C y fuel (th - 1/50)
    else 0

/-- The stopping condition of the coefficient-search loop expressed on the
step counter k: after k decrements th equals 0.9 - k/50, and the loop stops
when th is no longer above 0.7 (k = 10) or the class of the blend differs. -/
def thStop (C : ℚ → ℕ) (y k : ℕ) : Prop :=
  k = 10 ∨ C (9/10 - (k : ℚ)/50) ≠ y

instance thStopDecidable (C : ℚ → ℕ) (y : ℕ) : DecidablePred (thStop C y) := by
  intro k
  unfold thStop
  infer_instance

/-- The number of decrements the coefficient-search loop performs: the least k
satisfying the stopping condition (k = 10 always does). -/
def kStar (C : ℚ → ℕ) (y : ℕ) : ℕ :=
  Nat.find (show ∃ k, thStop C y k from ⟨10, Or.inl rfl⟩)

/-- Declarative value of the sample appended by augment_data_distill for source
index j and partner index i: the blend of the two images at coefficient
(0.9 + th) / 2, where th = 0.9 - kStar/50 is the final interpolation
coefficient of the search loop, labeled with the label of sample j. -/
def augVal (predict : PredictFn) (samples : List (Img × ℕ)) (j i : ℕ) : Img × ℕ :=
  (blend (sampleX samples j) (sampleX samples i)
    ((9/10 +
      (9/10 -
        (kStar (fun t => classMinMse predict (blend (sampleX samples j) (sampleX samples i) t))
          (sampleY samples j) : ℚ)/50)) / 2),
   sampleY samples j)

/-- One iteration of the augmentation loop of augment_data_distill for the
current sample s, with draw stream r: rejection-sample a partner with a
different label, run the coefficient search from th = 0.9 (11 units of fuel
exceed its maximal 10 iterations), and build the blend at (0.9 + th) / 2 with
the label of s. -/
def augStep (predict : PredictFn) (samples : List (Img × ℕ)) (fuel : ℕ) (r : ℕ → ℕ)
    (s : Img × ℕ) : Option (Img × ℕ) :=
  match drawDiffLabel samples s.2 r fuel 0 with
  | none => none
  | some i =>
    some (blend s.1 (sampleX samples i)
      ((9/10 +
        thSearch (fun t => classMinMse predict (blend s.1 (sampleX samples i) t)) s.2 11 (9/10))
        / 2),
      s.2)

/-- The loop of augment_data_distill over the indices of the processed samples,
collecting the appended pairs; rej j is the draw stream used for index j. -/
def augLoop (predict : PredictFn) (samples : List (Img × ℕ)) (fuel : ℕ) (rej : ℕ → ℕ → ℕ) :
    List ℕ → Option (List (Img × ℕ))
  | [] => some []
  | j :: rest =>
    match augStep predict samples fuel (rej j) (samples.getD j default) with
    | none => none
    | some a =>
      match augLoop predict samples fuel rej rest with
      | none => none
      | some l => some (a :: l)

/-- Embeds augment_data_distill: the first int(len(samples) * 0.2) =
len(samples) / 5 samples are processed in order, and the generated pairs are
appended after the original list. -/
def augment_data_distill (predict : PredictFn) (rej : ℕ → ℕ → ℕ) (fuel : ℕ)
    (samples : List (Img × ℕ)) : Option (List (Img × ℕ)) :=
  match augLoop predict samples fuel rej (List.range (samples.length / 5)) with
  | none => none
  | some aug => some (samples ++ aug)

/-- Embeds the elementwise average (img_true + img_random) / 2 of the
pair-sample mixing block. -/
def avgImg (a b : Img) : Img :=
  List.zipWith (fun u v => (u + v) / 2) a b

/-- Embeds the pair-sample mixing block of run_experiment in
pairing_samples/train.py: for each index i of the flattened support set and
each of len(x_train) inner repetitions j, a random partner index ridx i j is
drawn, the elementwise average of the two images is formed, and the label is
y_train of i or of the partner according to the coin draw. -/
def pair_samples (x_train : List Img) (y_train : List ℕ) (ridx : ℕ → ℕ → ℕ)
    (coin : ℕ → ℕ → Bool) : List (Img × ℕ) :=
  (List.range x_train.length).flatMap (fun i =>
    (List.range x_train.length).map (fun j =>
      (avgImg (x_train.getD i default) (x_train.getD (ridx i j) default),
       y_train.getD (if coin i j then i else ridx i j) 0)))

/-- Embeds the per-episode processing of run_experiment: an optional
pretraining phase on the model, then epochs executions of the training epoch
body (which updates the model and the mutable training-sample state, covering
shuffling and augmentation), then the accuracy of the final model on the
episode's query set. -/
def episodeStep {M S E : Type} (preFn : M → E → M) (epochs : ℕ) (epochFn : M × S → M × S)
    (testFn : M → E → ℚ) (initS : E → S) (m : M) (e : E) : M × ℚ :=
  (((epochFn^[epochs]) (preFn m e, initS e)).1,
   testFn ((epochFn^[epochs]) (preFn m e, initS e)).1 e)

/-- One iteration of the episode loop: the model is updated and the accuracy
is appended to accs. -/
def episodeFoldStep {M E : Type} (step : M → E → M × ℚ) (p : M × List ℚ) (e : E) :
    M × List ℚ :=
  ((step p.1 e).1, p.2 ++ [(step p.1 e).2])

/-- Embeds the accs accumulation of run_experiment: for each trial a fresh
model is created and the episode loop appends one accuracy per episode to the
shared accs list. -/
def run_experiment_accs {M E : Type} (trials : ℕ) (episodes : ℕ → List E)
    (initModel : ℕ → M) (step : M → E → M × ℚ) : List ℚ :=
  (List.range trials).foldl
    (fun accs t => ((episodes t).foldl (episodeFoldStep step) (initModel t, accs)).2) []

/-- Embeds np.mean on a list: NaN (modelled as none) on the empty list,
otherwise the arithmetic mean. -/
def npMean (l : List ℚ) : Option ℚ :=
  if l.isEmpty then none else some (l.sum / (l.length : ℚ))

/-- Embeds run_experiment: np.mean of the accuracies accumulated over all
trials and all episodes of each trial. -/
def run_experiment {M S E : Type} (trials : ℕ) (episodes : ℕ → List E) (initModel : ℕ → M)
    (preFn : M → E → M) (epochs : ℕ) (epochFn : M × S → M × S) (testFn : M → E → ℚ)
    (initS : E → S) : Option ℚ :=
  npMean (run_experiment_accs trials episodes initModel
    (episodeStep preFn epochs epochFn testFn initS))

/-- Declarative form of the episode loop of one trial: the list of accuracies
produced while threading the model state through the episodes. -/
def episodeAccs {M E : Type} (step : M → E → M × ℚ) : M → List E → List ℚ
  | _, [] => []
  | m, e :: es => (step m e).2 :: episodeAccs step (step m e).1 es

/-- The full list of per-episode accuracies an experiment run accumulates:
one episodeAccs block per trial, in trial order. -/
def allEpisodeAccs {M S E : Type} (trials : ℕ) (episodes : ℕ → List E) (initModel : ℕ → M)
    (preFn : M → E → M) (epochs : ℕ) (epochFn : M × S → M × S) (testFn : M → E → ℚ)
    (initS : E → S) : List ℚ :=
  ((List.range trials).map (fun t =>
    episodeAccs (episodeStep preFn epochs epochFn testFn initS) (initModel t)
      (episodes t))).flatten

/-- The experiment functions the grid-search driver can dispatch to. -/
inductive ExpFunc : Type
  | omniglot
  | customer
  | fullTest
  | standard
deriving DecidableEq

/-- The dataset name string omniglot. -/
def omniglotName : String := (r"omniglot")

/-- The dataset name string customer. -/
def customerName : String := (r"customer")

/-- The dataset name string mnist. -/
def mnistName : String := (r"mnist")

/-- The dataset name string fashion_mnist. -/
def fashionMnistName : String := (r"fashion_mnist")

/-- The dataset name string svhn. -/
def svhnName : String := (r"svhn")

/-- The message of the exception raised on an unrecognized dataset name. -/
def unknownDatasetMsg : String := (r"Unknown dataset!")

/-- Embeds the dataset dispatch of params_search.py: omniglot and customer
select their dedicated experiment functions, the three torchvision datasets
select the full-test or standard function according to the full_test flag, and
any other name raises Exception("Unknown dataset!"). -/
def selectExpFunc (ds : String) (full_test : Bool) : Except String ExpFunc :=
  if ds = omniglotName then Except.ok ExpFunc.omniglot
  else if ds = customerName then Except.ok ExpFunc.customer
  else if ds ∈ [mnistName, fashionMnistName, svhnName] then
    Except.ok (if full_test then ExpFunc.fullTest else ExpFunc.standard)
  else Except.error unknownDatasetMsg

/-- Embeds itertools.product on the lists of configured values: the full
Cartesian product, leftmost factor varying slowest. -/
def cartProd {α : Type} : List (List α) → List (List α)
  | [] => [[]]
  | xs :: rest => xs.flatMap (fun x => (cartProd rest).map (fun t => x :: t))

/-- Embeds the grid loop of params_search.py acting on the results file: the
file initially holds initRows, and each grid point appends exactly one row
holding the parameters, the measured accuracy and the duration. -/
def gridRowsAfter {α : Type} (initRows : List (List α × ℚ × ℚ)) (values : List (List α))
    (accOf durOf : List α → ℚ) : List (List α × ℚ × ℚ) :=
  (cartProd values).foldl (fun rows p => rows ++ [(p, accOf p, durOf p)]) initRows

/-- Concrete model for witnesses: two predictor classes, class 0 always has
the smaller MSE. -/
def wPredict : PredictFn := fun _ => ([[0], [1]], [0])

/-- Concrete sample list for the augmentation witnesses: five samples, the
first labeled 0 and the second labeled 1. -/
def wSamples : List (Img × ℕ) := [([1], 0), ([0], 1), ([0], 0), ([0], 0), ([0], 0)]

/-- Concrete draw streams for the augmentation witnesses: always draw index 1. -/
def wRej : ℕ → ℕ → ℕ := fun _ _ => 1

/-- Concrete sample list in which every sample carries the same label. -/
def wSamplesSame : List (Img × ℕ) := [([1], 2), ([0], 2)]

/-- Concrete flattened support set for the pairing witness. -/
def w2X : List Img := [[0], [1]]

/-- Concrete label list for the pairing witness. -/
def w2Y : List ℕ := [0, 1]

/-- The test loop computes the pair (number of iterated samples, number of
samples whose minimum-MSE class equals their label), on top of the initial
counters. -/
theorem testLoop_eq (predict : PredictFn) :
    ∀ (l : List (Img × ℕ)) (i c : ℕ),
      testLoop predict l i c =
        (i + l.length, c + l.countP (fun s => decide (classMinMse predict s.1 = s.2))) := by
  intro l
  induction l with
  | nil => intro i c; simp [testLoop]
  | cons s rest ih =>
    intro i c
    by_cases h : classMinMse predict s.1 = s.2
    · simp only [testLoop, ih, List.countP_cons, List.length_cons, Prod.mk.injEq, h]
      refine ⟨by omega, ?_⟩
      simp
      omega
    · simp only [testLoop, ih, List.countP_cons, List.length_cons, Prod.mk.injEq]
      refine ⟨by omega, ?_⟩
      simp [h]

/-- C3: for every non-empty test set, test returns correct / N where N is the
number of iterated query samples and a sample is correct exactly when the
minimum-MSE class (np.argmin over the halved squared-error sums) equals its
label; the returned accuracy lies in [0, 1]. -/
theorem test_accuracy_formula (predict : PredictFn) (loader : List (Img × ℕ))
    (h : loader ≠ []) :
    test predict loader =
      some ((loader.countP (fun s => decide (classMinMse predict s.1 = s.2)) : ℚ) /
        (loader.length : ℚ))
    ∧ (0 : ℚ) ≤ (loader.countP (fun s => decide (classMinMse predict s.1 = s.2)) : ℚ) /
        (loader.length : ℚ)
    ∧ (loader.countP (fun s => decide (classMinMse predict s.1 = s.2)) : ℚ) /
        (loader.length : ℚ) ≤ 1 := by
  match loader, h with
  | s :: rest, _ =>
    refine ⟨?_, ?_, ?_⟩
    · simp [test, testLoop_eq]
    · positivity
    · rw [div_le_one (by exact_mod_cast Nat.succ_pos rest.length)]
      exact_mod_cast (s :: rest).countP_le_length _

/-- Witness for test_accuracy_formula at a concrete predictor and loader. -/
theorem test_accuracy_formula_witness :
    test wPredict [([0], 0)] =
      some (([([0], 0)].countP (fun s => decide (classMinMse wPredict s.1 = s.2)) : ℚ) /
        (([([0], 0)] : List (Img × ℕ)).length : ℚ))
    ∧ (0 : ℚ) ≤ (([([0], 0)] : List (Img × ℕ)).countP
        (fun s => decide (classMinMse wPredict s.1 = s.2)) : ℚ) /
        (([([0], 0)] : List (Img × ℕ)).length : ℚ)
    ∧ (([([0], 0)] : List (Img × ℕ)).countP
        (fun s => decide (classMinMse wPredict s.1 = s.2)) : ℚ) /
        (([([0], 0)] : List (Img × ℕ)).length : ℚ) ≤ 1 :=
  test_accuracy_formula wPredict [([0], 0)] (by simp)

/-- C10: test has the unstated precondition that the loader is non-empty: on
an empty loader the accuracy computation fails (the loop variable batch_i is
unbound), modelled as the none result, and on every non-empty loader a value
is returned. -/
theorem test_empty_loader (predict : PredictFn) (loader : List (Img × ℕ)) :
    test predict loader = none ↔ loader = [] := by
  cases loader with
  | nil => simp [test]
  | cons s rest => simp [test]

/-- C5: the grid-search driver raises exactly on an unrecognized dataset name:
the dispatch succeeds if and only if the configured name is one of omniglot,
customer, mnist, fashion_mnist, svhn, it selects the corresponding experiment
function for each recognized name, and the only error it can produce is the
Unknown dataset exception. -/
theorem selectExpFunc_dispatch (ds : String) (ft : Bool) :
    ((∃ k, selectExpFunc ds ft = Except.ok k) ↔
      ds ∈ [omniglotName, customerName, mnistName, fashionMnistName, svhnName])
    ∧ (selectExpFunc ds ft = Except.error unknownDatasetMsg ↔
      ds ∉ [omniglotName, customerName, mnistName, fashionMnistName, svhnName])
    ∧ selectExpFunc omniglotName ft = Except.ok ExpFunc.omniglot
    ∧ selectExpFunc customerName ft = Except.ok ExpFunc.customer
    ∧ selectExpFunc mnistName ft =
        Except.ok (if ft then ExpFunc.fullTest else ExpFunc.standard)
    ∧ selectExpFunc fashionMnistName ft =
        Except.ok (if ft then ExpFunc.fullTest else ExpFunc.standard)
    ∧ selectExpFunc svhnName ft =
        Except.ok (if ft then ExpFunc.fullTest else ExpFunc.standard) := by
  refine ⟨?_, ?_, ?_, ?_, ?_, ?_, ?_⟩
  · unfold selectExpFunc
    split_ifs with h1 h2 h3 <;>
      simp_all [omniglotName, customerName, mnistName, fashionMnistName, svhnName]
  · unfold selectExpFunc
    split_ifs with h1 h2 h3 <;>
      simp_all [omniglotName, customerName, mnistName, fashionMnistName, svhnName]
  · simp [selectExpFunc]
  · simp [selectExpFunc, omniglotName, customerName]
  · simp [selectExpFunc, omniglotName, customerName, mnistName]
  · simp [selectExpFunc, omniglotName, customerName, mnistName, fashionMnistName]
  · simp [selectExpFunc, omniglotName, customerName, mnistName, fashionMnistName, svhnName]

/-- Appending one element per processed item in a left fold produces the
initial list followed by the mapped list. -/
theorem foldl_append_singleton {α β : Type} (f : α → β) :
    ∀ (l : List α) (init : List β),
      l.foldl (fun r p => r ++ [f p]) init = init ++ l.map f := by
  intro l
  induction l with
  | nil => intro init; simp
  | cons x xs ih => intro init; simp [ih]

/-- Summing a constant over a list multiplies it by the length. -/
theorem sum_map_const_nat {α : Type} (c : ℕ) :
    ∀ l : List α, (l.map (fun _ => c)).sum = l.length * c := by
  intro l
  induction l with
  | nil => simp
  | cons x xs ih =>
    simp [ih]
    ring

/-- The Cartesian product of a list of value lists has as many tuples as the
product of the list lengths. -/
theorem cartProd_length {α : Type} :
    ∀ values : List (List α), (cartProd values).length = (values.map List.length).prod := by
  intro values
  induction values with
  | nil => simp [cartProd]
  | cons xs rest ih =>
    have hconst : (List.length ∘ fun x => List.map (fun t => x :: t) (cartProd rest)) =
        (fun _ : α => (cartProd rest).length) := by
      funext x
      simp
    simp [cartProd, List.length_flatMap, hconst, sum_map_const_nat, ih]

/-- C6: the grid-search driver enumerates the full Cartesian product of the
configured value lists and appends exactly one result row per grid point, so a
complete run appends as many rows as the product of the lengths of the value
lists. -/
theorem grid_rows_cartesian {α : Type} (initRows : List (List α × ℚ × ℚ))
    (values : List (List α)) (accOf durOf : List α → ℚ) :
    gridRowsAfter initRows values accOf durOf =
      initRows ++ (cartProd values).map (fun p => (p, accOf p, durOf p))
    ∧ (gridRowsAfter initRows values accOf durOf).length =
      initRows.length + (values.map List.length).prod := by
  have h := foldl_append_singleton (fun p => (p, accOf p, durOf p)) (cartProd values) initRows
  refine ⟨h, ?_⟩
  unfold gridRowsAfter at h ⊢
  rw [h]
  simp [cartProd_length]

/-- The coefficient-search loop executes its body at most j more times once
its argument is at most 0.7 + j/50. -/
theorem thIters_le (C : ℚ → ℕ) (y : ℕ) :
    ∀ (j fuel : ℕ) (th : ℚ), th ≤ 7/10 + (j : ℚ)/50 → thIters C y fuel th ≤ j := by
  intro j
  induction j with
  | zero =>
    intro fuel th hth
    cases fuel with
    | zero => simp [thIters]
    | succ fuel =>
      have hnot : ¬ (7/10 < th) := by
        push_cast at hth
        linarith
      simp [thIters, hnot]
  | succ j ih =>
    intro fuel th hth
    cases fuel with
    | zero => simp [thIters]
    | succ fuel =>
      by_cases h1 : 7/10 < th
      · by_cases h2 : C th ≠ y
        · simp [thIters, h1, h2]
        · have hrec : thIters C y fuel (th - 1/50) ≤ j := by
            apply ih
            push_cast at hth ⊢
            linarith
          simp only [thIters, if_pos h1, if_neg h2]
          omega
      · simp [thIters, h1]

/-- C9: augment_data_distill can terminate only when at least two distinct
labels occur: if every sample carries the label of the current sample, the
rejection-sampling loop rejects every in-range draw and never exits, whatever
fuel it is given; and the coefficient-search loop started at th = 0.9 with
decrements of 0.02 and exit bound 0.7 executes its body at most 11 times. -/
theorem augment_data_distill_termination :
    (∀ (samples : List (Img × ℕ)) (y : ℕ) (r : ℕ → ℕ),
      (∀ s ∈ samples, s.2 = y) → (∀ k, r k < samples.length) →
      ∀ (fuel k0 : ℕ), drawDiffLabel samples y r fuel k0 = none)
    ∧ (∀ (C : ℚ → ℕ) (y fuel : ℕ), thIters C y fuel (9/10) ≤ 11) := by
  constructor
  · intro samples y r hall hr fuel
    induction fuel with
    | zero => intro k0; simp [drawDiffLabel]
    | succ fuel ih =>
      intro k0
      have hmem : samples.getD (r k0) default ∈ samples := by
        rw [List.getD_eq_getElem samples default (hr k0)]
        exact List.getElem_mem (hr k0)
      have hy : (samples.getD (r k0) default).2 = y := hall _ hmem
      simp only [drawDiffLabel, if_pos hy]
      exact ih (k0 + 1)
  · intro C y fuel
    have h := thIters_le C y 10 fuel (9/10) (by norm_num)
    omega

/-- Witness for augment_data_distill_termination: a sample list in which every
label equals 2 makes the rejection loop return none for concrete fuel, and a
concrete coefficient-search instance stays within 11 iterations. -/
theorem augment_data_distill_termination_witness :
    (∀ s ∈ wSamplesSame, s.2 = 2)
    ∧ drawDiffLabel wSamplesSame 2 (fun _ => 0) 5 0 = none
    ∧ thIters (fun _ => 0) 0 20 (9/10) ≤ 11 := by
  refine ⟨by decide, ?_, ?_⟩
  · exact augment_data_distill_termination.1 wSamplesSame 2 (fun _ => 0) (by decide)
      (fun k => by show (0 : ℕ) < 2; norm_num) 5 0
  · exact augment_data_distill_termination.2 (fun _ => 0) 0 20

/-- The coefficient-search loop run from 0.9 - j/50 with no earlier stop
computes the coefficient 0.9 - kStar/50 determined by the least stopping
index. -/
theorem thSearch_eq_kStar_aux (C : ℚ → ℕ) (y : ℕ) :
    ∀ (d j : ℕ), j + d = 10 → (∀ k < j, C (9/10 - (k : ℚ)/50) = y) →
      thSearch C y (d + 1) (9/10 - (j : ℚ)/50) = 9/10 - (kStar C y : ℚ)/50 := by
  intro d
  induction d with
  | zero =>
    intro j hj hmin
    have hj10 : j = 10 := by omega
    subst hj10
    have hk : kStar C y = 10 := by
      rw [kStar, Nat.find_eq_iff]
      refine ⟨Or.inl rfl, ?_⟩
      intro n hn
      unfold thStop
      push_neg
      exact ⟨by omega, hmin n hn⟩
    have hth : ¬ (7/10 < 9/10 - ((10 : ℕ) : ℚ)/50) := by norm_num
    rw [hk]
    simp only [thSearch]
    rw [if_neg hth]
  | succ d ih =>
    intro j hj hmin
    have hjle : j ≤ 9 := by omega
    have hth : 7/10 < 9/10 - (j : ℚ)/50 := by
      have hc : (j : ℚ) ≤ 9 := by exact_mod_cast hjle
      linarith
    by_cases hC : C (9/10 - (j : ℚ)/50) ≠ y
    · have hk : kStar C y = j := by
        rw [kStar, Nat.find_eq_iff]
        refine ⟨Or.inr hC, ?_⟩
        intro n hn
        unfold thStop
        push_neg
        exact ⟨by omega, hmin n hn⟩
      rw [hk]
      simp only [thSearch]
      rw [if_pos hth, if_pos hC]
    · simp only [thSearch]
      rw [if_pos hth, if_neg hC]
      have harg : 9/10 - (j : ℚ)/50 - 1/50 = 9/10 - ((j + 1 : ℕ) : ℚ)/50 := by
        push_cast
        ring
      rw [harg]
      apply ih (j + 1) (by omega)
      intro k hk
      rcases Nat.lt_succ_iff_lt_or_eq.mp hk with h | h
      · exact hmin k h
      · subst h
        exact not_ne_iff.mp hC

/-- The coefficient-search loop of augment_data_distill, started at 0.9 with
11 units of fuel, computes the declarative coefficient 0.9 - kStar/50. -/
theorem thSearch_eq_kStar (C : ℚ → ℕ) (y : ℕ) :
    thSearch C y 11 (9/10) = 9/10 - (kStar C y : ℚ)/50 := by
  have h := thSearch_eq_kStar_aux C y 10 0 (by omega)
      (fun k hk => absurd hk (Nat.not_lt_zero k))
  simpa using h

/-- The rejection-sampling loop started at stream position k0 returns the draw
at the first accepting position kacc, provided only rejected draws lie between
k0 and kacc and the fuel covers the distance. -/
theorem drawDiffLabel_some (samples : List (Img × ℕ)) (y : ℕ) (r : ℕ → ℕ) (kacc : ℕ)
    (hacc : (samples.getD (r kacc) default).2 ≠ y) :
    ∀ (fuel k0 : ℕ), k0 ≤ kacc →
      (∀ j, k0 ≤ j → j < kacc → (samples.getD (r j) default).2 = y) →
      kacc < k0 + fuel → drawDiffLabel samples y r fuel k0 = some (r kacc) := by
  intro fuel
  induction fuel with
  | zero =>
    intro k0 hle hmid hlt
    omega
  | succ fuel ih =>
    intro k0 hle hmid hlt
    rcases eq_or_lt_of_le hle with heq | hlt2
    · subst heq
      simp only [drawDiffLabel]
      rw [if_neg hacc]
    · have hc : (samples.getD (r k0) default).2 = y := hmid k0 (le_refl k0) hlt2
      simp only [drawDiffLabel]
      rw [if_pos hc]
      exact ih (k0 + 1) (by omega) (fun j hj1 hj2 => hmid j (by omega) hj2) (by omega)

/-- One iteration of the augmentation loop computes the declarative augVal at
the first accepting draw position. -/
theorem augStep_eq_augVal (predict : PredictFn) (samples : List (Img × ℕ)) (fuel : ℕ)
    (r : ℕ → ℕ) (j k0 : ℕ)
    (hmin : ∀ k < k0, sampleY samples (r k) = sampleY samples j)
    (hk0 : sampleY samples (r k0) ≠ sampleY samples j)
    (hlt : k0 < fuel) :
    augStep predict samples fuel r (samples.getD j default) =
      some (augVal predict samples j (r k0)) := by
  have hdraw := drawDiffLabel_some samples (sampleY samples j) r k0 hk0 fuel 0
      (by omega) (fun i h0i hik => hmin i hik) (by omega)
  simp only [sampleY] at hdraw
  unfold augStep
  rw [hdraw]
  simp only [augVal, sampleX, sampleY]
  rw [thSearch_eq_kStar]

/-- When every iteration of the augmentation loop succeeds, the loop collects
exactly the mapped values. -/
theorem augLoop_eq_map (predict : PredictFn) (samples : List (Img × ℕ)) (fuel : ℕ)
    (rej : ℕ → ℕ → ℕ) (f : ℕ → Img × ℕ) :
    ∀ l : List ℕ,
      (∀ j ∈ l, augStep predict samples fuel (rej j) (samples.getD j default) = some (f j)) →
      augLoop predict samples fuel rej l = some (l.map f) := by
  intro l
  induction l with
  | nil => intro hl; simp [augLoop]
  | cons j rest ih =>
    intro hl
    have hj := hl j (by simp)
    have hrest := ih (fun i hi => hl i (by simp [hi]))
    simp only [augLoop]
    rw [hj, hrest]
    rfl

/-- Full characterization of augment_data_distill under the success hypothesis
that for every processed index some draw hits a different label within the
fuel bound: the output extends the input with the mapped declarative values at
the first accepting draw of each processed sample. -/
theorem augment_data_distill_spec (predict : PredictFn) (rej : ℕ → ℕ → ℕ) (fuel : ℕ)
    (samples : List (Img × ℕ))
    (hsucc : ∀ j < samples.length / 5,
      ∃ k, k < fuel ∧ sampleY samples (rej j k) ≠ sampleY samples j) :
    ∃ g : ℕ → ℕ,
      (∀ j < samples.length / 5,
        g j < fuel ∧
        (∀ k < g j, sampleY samples (rej j k) = sampleY samples j) ∧
        sampleY samples (rej j (g j)) ≠ sampleY samples j) ∧
      augment_data_distill predict rej fuel samples =
        some (samples ++ (List.range (samples.length / 5)).map
          (fun j => augVal predict samples j (rej j (g j)))) := by
  classical
  refine ⟨fun j => if h : ∃ k, sampleY samples (rej j k) ≠ sampleY samples j
      then Nat.find h else 0, ?hg, ?hout⟩
  case hg =>
    intro j hj
    obtain ⟨k, hkf, hne⟩ := hsucc j hj
    have hex : ∃ k, sampleY samples (rej j k) ≠ sampleY samples j := ⟨k, hne⟩
    simp only [dif_pos hex]
    refine ⟨lt_of_le_of_lt (Nat.find_min' hex hne) hkf, ?_, Nat.find_spec hex⟩
    intro k2 hk2
    exact not_ne_iff.mp (Nat.find_min hex hk2)
  case hout =>
    have hstep : ∀ j ∈ List.range (samples.length / 5),
        augStep predict samples fuel (rej j) (samples.getD j default) =
          some ((fun j => augVal predict samples j
            (rej j (if h : ∃ k, sampleY samples (rej j k) ≠ sampleY samples j
              then Nat.find h else 0))) j) := by
      intro j hjmem
      have hj : j < samples.length / 5 := List.mem_range.mp hjmem
      obtain ⟨k, hkf, hne⟩ := hsucc j hj
      have hex : ∃ k, sampleY samples (rej j k) ≠ sampleY samples j := ⟨k, hne⟩
      simp only [dif_pos hex]
      exact augStep_eq_augVal predict samples fuel (rej j) j (Nat.find hex)
        (fun k2 hk2 => not_ne_iff.mp (Nat.find_min hex hk2)) (Nat.find_spec hex)
        (lt_of_le_of_lt (Nat.find_min' hex hne) hkf)
    have hloop := augLoop_eq_map predict samples fuel rej _ (List.range (samples.length / 5)) hstep
    unfold augment_data_distill
    rw [hloop]

/-- C1: augment_data_distill processes each sample among the first 20 percent
of the list; for each it rejection-samples a partner until the drawn sample
has a different label, lowers the interpolation coefficient th from 0.9 in
steps of 0.02 until the minimum-MSE class of the blend differs from the own
label or th reaches 0.7, and appends the blend at coefficient (0.9 + th) / 2
labeled with the original label (the appended value is augVal, whose kStar
component is the least stopping index of the coefficient search). -/
theorem augment_data_distill_interpolation (predict : PredictFn) (rej : ℕ → ℕ → ℕ)
    (fuel : ℕ) (samples : List (Img × ℕ))
    (hsucc : ∀ j < samples.length / 5,
      ∃ k, k < fuel ∧ sampleY samples (rej j k) ≠ sampleY samples j) :
    ∃ out, augment_data_distill predict rej fuel samples = some out ∧
      out.take samples.length = samples ∧
      out.length = samples.length + samples.length / 5 ∧
      ∀ j < samples.length / 5, ∃ k0,
        (∀ k < k0, sampleY samples (rej j k) = sampleY samples j) ∧
        sampleY samples (rej j k0) ≠ sampleY samples j ∧
        out.getD (samples.length + j) default = augVal predict samples j (rej j k0) := by
  obtain ⟨g, hg, hout⟩ := augment_data_distill_spec predict rej fuel samples hsucc
  refine ⟨_, hout, List.take_left _ _, by simp, ?_⟩
  intro j hj
  refine ⟨g j, (hg j hj).2.1, (hg j hj).2.2, ?_⟩
  rw [List.getD_append_right _ _ _ _ (by omega)]
  have hsub : samples.length + j - samples.length = j := by omega
  rw [hsub, List.getD_eq_getElem?_getD, List.getElem?_map, List.getElem?_range hj]
  rfl

/-- Witness for augment_data_distill_interpolation at a concrete model, sample
list and draw stream. -/
theorem augment_data_distill_interpolation_witness :
    (∀ j < wSamples.length / 5,
      ∃ k, k < 3 ∧ sampleY wSamples (wRej j k) ≠ sampleY wSamples j)
    ∧ ∃ out, augment_data_distill wPredict wRej 3 wSamples = some out ∧
        out.take wSamples.length = wSamples ∧
        out.length = wSamples.length + wSamples.length / 5 ∧
        ∀ j < wSamples.length / 5, ∃ k0,
          (∀ k < k0, sampleY wSamples (wRej j k) = sampleY wSamples j) ∧
          sampleY wSamples (wRej j k0) ≠ sampleY wSamples j ∧
          out.getD (wSamples.length + j) default = augVal wPredict wSamples j (wRej j k0) := by
  have hsucc : ∀ j < wSamples.length / 5,
      ∃ k, k < 3 ∧ sampleY wSamples (wRej j k) ≠ sampleY wSamples j := by
    intro j hj
    have hj1 : j < 1 := by simpa [wSamples] using hj
    have hj0 : j = 0 := by omega
    subst hj0
    exact ⟨0, by omega, by decide⟩
  exact ⟨hsucc, augment_data_distill_interpolation wPredict wRej 3 wSamples hsucc⟩

/-- C8: augment_data_distill keeps the original samples as an unchanged prefix
in their original order, appends exactly len(samples) / 5 new samples, each
appended sample carries the label of the sample it was derived from, and the
set of labels of the output equals the set of labels of the input. -/
theorem augment_data_distill_frame (predict : PredictFn) (rej : ℕ → ℕ → ℕ)
    (fuel : ℕ) (samples : List (Img × ℕ))
    (hsucc : ∀ j < samples.length / 5,
      ∃ k, k < fuel ∧ sampleY samples (rej j k) ≠ sampleY samples j) :
    ∃ out, augment_data_distill predict rej fuel samples = some out ∧
      out.take samples.length = samples ∧
      out.length = samples.length + samples.length / 5 ∧
      (∀ j < samples.length / 5,
        (out.getD (samples.length + j) default).2 = sampleY samples j) ∧
      (out.map Prod.snd).toFinset = (samples.map Prod.snd).toFinset := by
  obtain ⟨g, hg, hout⟩ := augment_data_distill_spec predict rej fuel samples hsucc
  refine ⟨_, hout, List.take_left _ _, by simp, ?_, ?_⟩
  · intro j hj
    rw [List.getD_append_right _ _ _ _ (by omega)]
    have hsub : samples.length + j - samples.length = j := by omega
    rw [hsub, List.getD_eq_getElem?_getD, List.getElem?_map, List.getElem?_range hj]
    simp [augVal]
  · rw [List.map_append, List.toFinset_append]
    apply Finset.union_eq_left.mpr
    intro x hx
    simp only [List.mem_toFinset, List.mem_map, List.map_map, Function.comp] at hx ⊢
    obtain ⟨j, hjmem, hjx⟩ := hx
    have hj : j < samples.length / 5 := List.mem_range.mp hjmem
    have hjlen : j < samples.length := lt_of_lt_of_le hj (Nat.div_le_self _ _)
    refine ⟨samples.getD j default, ?_, ?_⟩
    · rw [List.getD_eq_getElem samples default hjlen]
      exact List.getElem_mem hjlen
    · rw [← hjx]
      simp [augVal, sampleY]

/-- Witness for augment_data_distill_frame at a concrete model, sample list
and draw stream. -/
theorem augment_data_distill_frame_witness :
    (∀ j < wSamples.length / 5,
      ∃ k, k < 4 ∧ sampleY wSamples (wRej j k) ≠ sampleY wSamples j)
    ∧ ∃ out, augment_data_distill wPredict wRej 4 wSamples = some out ∧
        out.take wSamples.length = wSamples ∧
        out.length = wSamples.length + wSamples.length / 5 ∧
        (∀ j < wSamples.length / 5,
          (out.getD (wSamples.length + j) default).2 = sampleY wSamples j) ∧
        (out.map Prod.snd).toFinset = (wSamples.map Prod.snd).toFinset := by
  have hsucc : ∀ j < wSamples.length / 5,
      ∃ k, k < 4 ∧ sampleY wSamples (wRej j k) ≠ sampleY wSamples j := by
    intro j hj
    have hj1 : j < 1 := by simpa [wSamples] using hj
    have hj0 : j = 0 := by omega
    subst hj0
    exact ⟨0, by omega, by decide⟩
  exact ⟨hsucc, augment_data_distill_frame wPredict wRej 4 wSamples hsucc⟩

/-- Indexing a flat map of constant-length blocks at position i * c + j picks
the j-th element of the i-th block. -/
theorem flatMap_getD_block {β : Type} [Inhabited β] (c : ℕ) :
    ∀ (l : List ℕ) (f : ℕ → List β), (∀ m, (f m).length = c) →
      ∀ (i j : ℕ), i < l.length → j < c →
      (l.flatMap f).getD (i * c + j) default = (f (l.getD i 0)).getD j default := by
  intro l
  induction l with
  | nil =>
    intro f hf i j hi hj
    simp at hi
  | cons a rest ih =>
    intro f hf i j hi hj
    cases i with
    | zero =>
      simp only [List.flatMap_cons, Nat.zero_mul, Nat.zero_add]
      rw [List.getD_append _ _ _ _ (by rw [hf a]; exact hj)]
      rfl
    | succ i =>
      have hidx : (i + 1) * c + j = (f a).length + (i * c + j) := by
        rw [hf a]
        ring
      simp only [List.flatMap_cons, hidx]
      rw [List.getD_append_right _ _ _ _ (by omega)]
      have hsub : (f a).length + (i * c + j) - (f a).length = i * c + j := by omega
      rw [hsub]
      exact ih f hf i j (by simpa using hi) hj

/-- Indexing List.range n at i < n yields i. -/
theorem range_getD (n i : ℕ) (hi : i < n) : (List.range n).getD i 0 = i := by
  rw [List.getD_eq_getElem?_getD, List.getElem?_range hi]
  rfl

/-- Indexing a map over List.range n at i < n yields the function value. -/
theorem range_map_getD {β : Type} [Inhabited β] (n i : ℕ) (f : ℕ → β) (hi : i < n) :
    ((List.range n).map f).getD i default = f i := by
  rw [List.getD_eq_getElem?_getD, List.getElem?_map, List.getElem?_range hi]
  rfl

/-- C2: the pair-sample mixing step of the pretraining phase generates, for a
support set flattened to way * train_shot images, exactly that many paired
samples per original image (the square in total); the sample generated for
source image i and inner repetition j is the elementwise average of image i
and the randomly drawn image, labeled with the label of one of the two source
images as selected by the random coin, so every generated label is the label
of one of its two source images. -/
theorem pair_samples_mixing (x_train : List Img) (y_train : List ℕ)
    (ridx : ℕ → ℕ → ℕ) (coin : ℕ → ℕ → Bool) (way train_shot : ℕ)
    (hlen : x_train.length = way * train_shot) :
    (pair_samples x_train y_train ridx coin).length =
      (way * train_shot) * (way * train_shot)
    ∧ ∀ i < x_train.length, ∀ j < x_train.length,
        (pair_samples x_train y_train ridx coin).getD (i * x_train.length + j) default =
          (avgImg (x_train.getD i default) (x_train.getD (ridx i j) default),
           y_train.getD (if coin i j then i else ridx i j) 0)
        ∧ (((pair_samples x_train y_train ridx coin).getD
              (i * x_train.length + j) default).2 = y_train.getD i 0
          ∨ ((pair_samples x_train y_train ridx coin).getD
              (i * x_train.length + j) default).2 = y_train.getD (ridx i j) 0) := by
  constructor
  · have hconst : (List.length ∘ fun i => (List.range x_train.length).map
        (fun j => (avgImg (x_train.getD i default) (x_train.getD (ridx i j) default),
          y_train.getD (if coin i j then i else ridx i j) 0))) =
        (fun _ : ℕ => x_train.length) := by
      funext i
      simp
    simp only [pair_samples, List.length_flatMap]
    rw [hconst, sum_map_const_nat, List.length_range, hlen]
  · intro i hi j hj
    have hblock := flatMap_getD_block x_train.length (List.range x_train.length)
      (fun i => (List.range x_train.length).map
        (fun j => (avgImg (x_train.getD i default) (x_train.getD (ridx i j) default),
          y_train.getD (if coin i j then i else ridx i j) 0)))
      (fun m => by simp) i j (by simpa using hi) hj
    rw [range_getD _ _ hi] at hblock
    have hval : (pair_samples x_train y_train ridx coin).getD
        (i * x_train.length + j) default =
        (avgImg (x_train.getD i default) (x_train.getD (ridx i j) default),
         y_train.getD (if coin i j then i else ridx i j) 0) := by
      rw [pair_samples, hblock, range_map_getD _ _ _ hj]
    refine ⟨hval, ?_⟩
    rw [hval]
    by_cases hc : coin i j
    · left
      simp [hc]
    · right
      simp [hc]

/-- Witness for pair_samples_mixing at a concrete support set and streams. -/
theorem pair_samples_mixing_witness :
    w2X.length = 2 * 1
    ∧ ((pair_samples w2X w2Y (fun _ _ => 0) (fun _ _ => true)).length = (2 * 1) * (2 * 1)
      ∧ ∀ i < w2X.length, ∀ j < w2X.length,
          (pair_samples w2X w2Y (fun _ _ => 0) (fun _ _ => true)).getD
              (i * w2X.length + j) default =
            (avgImg (w2X.getD i default) (w2X.getD 0 default), w2Y.getD i 0)
          ∧ (((pair_samples w2X w2Y (fun _ _ => 0) (fun _ _ => true)).getD
                (i * w2X.length + j) default).2 = w2Y.getD i 0
            ∨ ((pair_samples w2X w2Y (fun _ _ => 0) (fun _ _ => true)).getD
                (i * w2X.length + j) default).2 = w2Y.getD 0 0)) := by
  have h := pair_samples_mixing w2X w2Y (fun _ _ => 0) (fun _ _ => true) 2 1 (by decide)
  exact ⟨by decide, h⟩

/-- The episode loop of one trial appends exactly the declarative episodeAccs
list to the accumulator while threading the model state. -/
theorem episodeFold_eq {M E : Type} (step : M → E → M × ℚ) :
    ∀ (es : List E) (m : M) (accs : List ℚ),
      (es.foldl (episodeFoldStep step) (m, accs)).2 = accs ++ episodeAccs step m es := by
  intro es
  induction es with
  | nil => intro m accs; simp [episodeAccs]
  | cons e rest ih =>
    intro m accs
    simp only [List.foldl_cons, episodeFoldStep, episodeAccs, ih]
    simp

/-- The trial loop accumulates the per-trial episode accuracies in trial
order. -/
theorem run_experiment_accs_eq {M E : Type} (episodes : ℕ → List E) (initModel : ℕ → M)
    (step : M → E → M × ℚ) :
    ∀ trials : ℕ, run_experiment_accs trials episodes initModel step =
      ((List.range trials).map (fun t => episodeAccs step (initModel t) (episodes t))).flatten := by
  have hgen : ∀ (A : ℕ → List ℚ) (l : List ℕ) (init : List ℚ),
      l.foldl (fun accs t => accs ++ A t) init = init ++ (l.map A).flatten := by
    intro A l
    induction l with
    | nil => intro init; simp
    | cons t rest ih =>
      intro init
      simp only [List.foldl_cons, ih, List.map_cons, List.flatten_cons]
      simp
  intro trials
  unfold run_experiment_accs
  have hfun : (fun (accs : List ℚ) (t : ℕ) =>
      ((episodes t).foldl (episodeFoldStep step) (initModel t, accs)).2) =
      (fun accs t => accs ++ episodeAccs step (initModel t) (episodes t)) := by
    funext accs t
    exact episodeFold_eq step (episodes t) (initModel t) accs
  rw [hfun, hgen]
  simp

/-- C4: for trials at least 1, run_experiment returns np.mean of the
per-episode test accuracies accumulated over all trials and all episodes
drawn within each trial, where each accuracy is measured after running the
configured number of training epochs on the episode; on a non-empty
accumulated list this is the arithmetic mean sum / count. -/
theorem run_experiment_mean_accuracy {M S E : Type} (trials : ℕ) (episodes : ℕ → List E)
    (initModel : ℕ → M) (preFn : M → E → M) (epochs : ℕ) (epochFn : M × S → M × S)
    (testFn : M → E → ℚ) (initS : E → S) (htr : 1 ≤ trials) :
    run_experiment trials episodes initModel preFn epochs epochFn testFn initS =
      npMean (allEpisodeAccs trials episodes initModel preFn epochs epochFn testFn initS)
    ∧ (allEpisodeAccs trials episodes initModel preFn epochs epochFn testFn initS ≠ [] →
      run_experiment trials episodes initModel preFn epochs epochFn testFn initS =
        some ((allEpisodeAccs trials episodes initModel preFn epochs epochFn testFn initS).sum /
          ((allEpisodeAccs trials episodes initModel preFn epochs epochFn testFn initS).length : ℚ))) := by
  constructor
  · unfold run_experiment allEpisodeAccs
    rw [run_experiment_accs_eq]
  · intro hne
    unfold run_experiment allEpisodeAccs npMean
    rw [run_experiment_accs_eq]
    unfold allEpisodeAccs at hne
    rw [if_neg (by simpa [List.isEmpty_iff] using hne)]

/-- Witness for run_experiment_mean_accuracy at a one-trial, one-episode
configuration with constant accuracy one half. -/
theorem run_experiment_mean_accuracy_witness :
    1 ≤ 1
    ∧ (run_experiment 1 (fun _ => [()]) (fun _ => ()) (fun m _ => m) 2 id
        (fun _ _ => (1 : ℚ)/2) (fun _ => ()) =
      npMean (allEpisodeAccs 1 (fun _ => [()]) (fun _ => ()) (fun m _ => m) 2 id
        (fun _ _ => (1 : ℚ)/2) (fun _ => ()))
    ∧ (allEpisodeAccs 1 (fun _ => [()]) (fun _ => ()) (fun m _ => m) 2 id
        (fun _ _ => (1 : ℚ)/2) (fun _ => ()) ≠ [] →
      run_experiment 1 (fun _ => [()]) (fun _ => ()) (fun m _ => m) 2 id
        (fun _ _ => (1 : ℚ)/2) (fun _ => ()) =
        some ((allEpisodeAccs 1 (fun _ => [()]) (fun _ => ()) (fun m _ => m) 2 id
          (fun _ _ => (1 : ℚ)/2) (fun _ => ())).sum /
          ((allEpisodeAccs 1 (fun _ => [()]) (fun _ => ()) (fun m _ => m) 2 id
            (fun _ _ => (1 : ℚ)/2) (fun _ => ())).length : ℚ)))) :=
  ⟨le_refl 1,
    run_experiment_mean_accuracy 1 (fun _ => [()]) (fun _ => ()) (fun m _ => m) 2 id
      (fun _ _ => (1 : ℚ)/2) (fun _ => ()) (le_refl 1)⟩
